import Mathlib

/-!
# Verification of MyTempo's Markdown text processor

Shallow embedding of `src/core/text_processor.py` (class `TextProcessor`).

Modelling conventions:
* A Python string is modelled as a `List Char` (one entry per Unicode code
  point, which is exactly Python's notion of a character).
* A `(character, tag)` tuple produced by the Python code is modelled as a
  `Frag = List Char × List String`.  The first component holds the literal
  characters of the fragment (most fragments are single characters; the
  horizontal-rule placeholder and the quote indent are multi-character).
  The second component models the Python tag string by its underscore-joined
  components in order: the Python code builds every nonempty tag either as a
  bare word (`'en'`, `'zh'`, `'horizontal_line'`, `f'h{level}'`) or as
  `f'{base}_{"_".join(sorted(all_tags))}'`; we keep the component list
  `base :: sorted all_tags` instead of the joined string (the join is
  injective on the lists the code builds).  The empty Python tag `''` of the
  line-terminator fragment is modelled as `[]`.
* `re.search` with the three fixed non-greedy patterns is modelled by
  explicit leftmost-then-shortest scanners (`search2` for the two-character
  delimiters `**` and `==`, `search1` for the `[*_]...[*_]` italic pattern);
  `.` does not match a newline, which the scanners reflect.
-/

namespace MyTempo

/-- A formatted fragment: literal characters plus the components of its tag. -/
abbrev Frag := List Char × List String

/-- The line-terminator fragment `('\n', '')` appended after every line. -/
def termFrag : Frag := (['\n'], [])

/-- Embeds `TextProcessor.is_chinese_char`: `'一' <= char <= '鿿'`. -/
def isChineseChar (c : Char) : Bool :=
  decide ('一' ≤ c ∧ c ≤ '鿿')

/-- Embeds `TextProcessor.get_font_tag`: `'zh'`/`'en'` prefix, `f'{prefix}_{base_tag}'`
when a base tag is given (tag modelled as its component list). -/
def getFontTag (c : Char) (baseTag : String) : List String :=
  let p := if isChineseChar c then "zh" else "en"
  if baseTag = "" then [p] else [p, baseTag]

/-- Python's default `str.strip()` whitespace, restricted to the ASCII
whitespace characters (the only ones exercised by this development). -/
def isPySpace (c : Char) : Bool :=
  decide (c = ' ' ∨ c = '\t' ∨ c = '\n' ∨ c = '\r' ∨ c = '\x0b' ∨ c = '\x0c')

/-- Embeds Python `str.strip()`: drop whitespace from both ends. -/
def pyStrip (s : List Char) : List Char :=
  ((s.dropWhile isPySpace).reverse.dropWhile isPySpace).reverse

/-- Python string comparison (`sorted` uses `<`): lexicographic by code point. -/
def charListLt : List Char → List Char → Bool
  | _, [] => false
  | [], _ :: _ => true
  | a :: as, b :: bs =>
    if a < b then true else if b < a then false else charListLt as bs

/-- Insert a string into a `≤`-sorted list (Python `sorted` building block). -/
def insertStr (a : String) : List String → List String
  | [] => [a]
  | b :: bs => if charListLt b.data a.data then b :: insertStr a bs
               else a :: b :: bs

/-- Embeds Python `sorted` on a list of strings (insertion sort; the lists sorted by
the code never contain duplicate strings, so stability is irrelevant). -/
def isort : List String → List String
  | [] => []
  | a :: as => insertStr a (isort as)

/-- Embeds `apply_format` (inner helper of `_process_text_format`): emit each
character with tag `f'{base}_{"_".join(sorted(tags + base_tags))}'`
(or the bare base when there are no tags), modelled componentwise. -/
def applyFormat (text : List Char) (tags baseTags : List String) : List Frag :=
  text.map (fun c =>
    let base := if isChineseChar c then "zh" else "en"
    let allTags := tags ++ baseTags
    if allTags = [] then ([c], [base]) else ([c], base :: isort allTags))

/-- Scanner for `re.search` of a two-character delimiter pattern
`dd(.*?)dd` (with `d = '*'` for bold, `d = '='` for highlight): position of
the closing `dd` reachable by the non-greedy group (which cannot cross a
newline), relative to the character after the opening delimiter. -/
def findClose2 (d : Char) : List Char → Option Nat
  | [] => none
  | c :: rest =>
    if c = d ∧ rest.head? = some d then some 0
    else if c = '\n' then none
    else (findClose2 d rest).map (· + 1)

/-- Embeds `re.search(r'dd(.*?)dd', text)` for `d ∈ {'*','='}`: leftmost start,
then shortest group.  Returns `(start, group, matchEnd)`. -/
def search2 (d : Char) : List Char → Option (Nat × List Char × Nat)
  | [] => none
  | c :: rest =>
    if c = d ∧ rest.head? = some d then
      match findClose2 d rest.tail with
      | some k => some (0, rest.tail.take k, k + 4)
      | none => (search2 d rest).map (fun m => (m.1 + 1, m.2.1, m.2.2 + 1))
    else (search2 d rest).map (fun m => (m.1 + 1, m.2.1, m.2.2 + 1))

/-- Closing-delimiter scanner for the italic pattern `[*_](.*?)[*_]`. -/
def findClose1 : List Char → Option Nat
  | [] => none
  | c :: rest =>
    if c = '*' ∨ c = '_' then some 0
    else if c = '\n' then none
    else (findClose1 rest).map (· + 1)

/-- Embeds `re.search(r'[*_](.*?)[*_]', text)`: leftmost start, shortest group. -/
def search1 : List Char → Option (Nat × List Char × Nat)
  | [] => none
  | c :: rest =>
    if c = '*' ∨ c = '_' then
      match findClose1 rest with
      | some k => some (0, rest.take k, k + 2)
      | none => (search1 rest).map (fun m => (m.1 + 1, m.2.1, m.2.2 + 1))
    else (search1 rest).map (fun m => (m.1 + 1, m.2.1, m.2.2 + 1))

/-- The `matches` list built by `process_formats`: the first match of each
pattern that matched, labelled, in the fixed order bold, highlight, italic. -/
def candidates (text : List Char) : List (String × Nat × List Char × Nat) :=
  (match search2 '*' text with | some m => [("bold", m)] | none => []) ++
  (match search2 '=' text with | some m => [("highlight", m)] | none => []) ++
  (match search1 text with | some m => [("italic", m)] | none => [])

/-- Embeds `matches.sort(key=start)` (stable) followed by taking `matches[0]`:
the first listed candidate with minimal start offset. -/
def firstMin : List (String × Nat × List Char × Nat) →
    Option (String × Nat × List Char × Nat)
  | [] => none
  | x :: xs =>
    match firstMin xs with
    | none => some x
    | some y => if x.2.1 ≤ y.2.1 then some x else some y

/-- A closing position found by `findClose2` leaves room for both closing
delimiter characters. -/
lemma findClose2_bound {d : Char} : ∀ {s : List Char} {k : Nat},
    findClose2 d s = some k → k + 2 ≤ s.length := by
  intro s
  induction s with
  | nil => intro k h; simp [findClose2] at h
  | cons c rest ih =>
    intro k h
    unfold findClose2 at h
    split at h
    · rename_i hc
      obtain ⟨_, hd⟩ := hc
      cases rest with
      | nil => simp at hd
      | cons r rs =>
        simp at h
        simp only [List.length_cons]
        omega
    · split at h
      · cases h
      · cases hr : findClose2 d rest with
        | none => rw [hr] at h; cases h
        | some k' =>
          rw [hr] at h
          simp at h
          have := ih hr
          simp only [List.length_cons]
          omega

/-- Same bound for the single-character closing scanner. -/
lemma findClose1_bound : ∀ {s : List Char} {k : Nat},
    findClose1 s = some k → k + 1 ≤ s.length := by
  intro s
  induction s with
  | nil => intro k h; simp [findClose1] at h
  | cons c rest ih =>
    intro k h
    unfold findClose1 at h
    split at h
    · simp at h
      simp only [List.length_cons]
      omega
    · split at h
      · cases h
      · cases hr : findClose1 rest with
        | none => rw [hr] at h; cases h
        | some k' =>
          rw [hr] at h
          simp at h
          have := ih hr
          simp only [List.length_cons]
          omega

/-- Shape of a `search2` result: the match occupies
`[start, start + group.length + 4)` and ends within the text. -/
lemma search2_bound {d : Char} : ∀ {s : List Char} {st : Nat} {g : List Char}
    {en : Nat}, search2 d s = some (st, g, en) →
    en = st + g.length + 4 ∧ en ≤ s.length := by
  intro s
  induction s with
  | nil => intro st g en h; simp [search2] at h
  | cons c rest ih =>
    intro st g en h
    unfold search2 at h
    split at h
    · cases hf : findClose2 d rest.tail with
      | some k =>
        rw [hf] at h
        simp at h
        obtain ⟨hst, hg, hen⟩ := h
        have hb := findClose2_bound hf
        simp only [List.length_tail] at hb
        rename_i hc
        obtain ⟨_, hd⟩ := hc
        have hlen1 : 1 ≤ rest.length := by
          cases rest with
          | nil => simp at hd
          | cons r rs => simp only [List.length_cons]; omega
        have hgl : g.length = k := by
          rw [← hg]
          simp only [List.length_take, List.length_tail]
          omega
        constructor
        · omega
        · simp only [List.length_cons]
          omega
      | none =>
        rw [hf] at h
        cases hr : search2 d rest with
        | none => rw [hr] at h; cases h
        | some m =>
          obtain ⟨mst, mg, men⟩ := m
          rw [hr] at h
          simp at h
          obtain ⟨hst, hg, hen⟩ := h
          obtain ⟨i1, i2⟩ := ih hr
          subst hg
          constructor
          · omega
          · simp only [List.length_cons]
            omega
    · cases hr : search2 d rest with
      | none => rw [hr] at h; cases h
      | some m =>
        obtain ⟨mst, mg, men⟩ := m
        rw [hr] at h
        simp at h
        obtain ⟨hst, hg, hen⟩ := h
        obtain ⟨i1, i2⟩ := ih hr
        subst hg
        constructor
        · omega
        · simp only [List.length_cons]
          omega

/-- Shape of a `search1` result: the match occupies
`[start, start + group.length + 2)` and ends within the text. -/
lemma search1_bound : ∀ {s : List Char} {st : Nat} {g : List Char} {en : Nat},
    search1 s = some (st, g, en) →
    en = st + g.length + 2 ∧ en ≤ s.length := by
  intro s
  induction s with
  | nil => intro st g en h; simp [search1] at h
  | cons c rest ih =>
    intro st g en h
    unfold search1 at h
    split at h
    · cases hf : findClose1 rest with
      | some k =>
        rw [hf] at h
        simp at h
        obtain ⟨hst, hg, hen⟩ := h
        have hb := findClose1_bound hf
        have hgl : g.length = k := by
          rw [← hg]
          simp [List.length_take]
          omega
        constructor
        · omega
        · simp only [List.length_cons]
          omega
      | none =>
        rw [hf] at h
        cases hr : search1 rest with
        | none => rw [hr] at h; cases h
        | some m =>
          obtain ⟨mst, mg, men⟩ := m
          rw [hr] at h
          simp at h
          obtain ⟨hst, hg, hen⟩ := h
          obtain ⟨i1, i2⟩ := ih hr
          subst hg
          constructor
          · omega
          · simp only [List.length_cons]
            omega
    · cases hr : search1 rest with
      | none => rw [hr] at h; cases h
      | some m =>
        obtain ⟨mst, mg, men⟩ := m
        rw [hr] at h
        simp at h
        obtain ⟨hst, hg, hen⟩ := h
        obtain ⟨i1, i2⟩ := ih hr
        subst hg
        constructor
        · omega
        · simp only [List.length_cons]
          omega

/-- Every candidate match is at least two characters longer than its group
and ends at an offset in `[2, text.length]`. -/
lemma candidates_bound {text : List Char} {fmt : String} {st : Nat}
    {g : List Char} {en : Nat} (h : (fmt, st, g, en) ∈ candidates text) :
    g.length + 2 ≤ text.length ∧ 2 ≤ en ∧ en ≤ text.length := by
  unfold candidates at h
  rw [List.mem_append, List.mem_append] at h
  rcases h with (h | h) | h
  · cases hb : search2 '*' text with
    | none => rw [hb] at h; simp at h
    | some m =>
      obtain ⟨mst, mg, men⟩ := m
      rw [hb] at h
      simp at h
      obtain ⟨h1, h2, h3, h4⟩ := h
      obtain ⟨b1, b2⟩ := search2_bound hb
      subst h3
      refine ⟨?_, ?_, ?_⟩ <;> omega
  · cases hb : search2 '=' text with
    | none => rw [hb] at h; simp at h
    | some m =>
      obtain ⟨mst, mg, men⟩ := m
      rw [hb] at h
      simp at h
      obtain ⟨h1, h2, h3, h4⟩ := h
      obtain ⟨b1, b2⟩ := search2_bound hb
      subst h3
      refine ⟨?_, ?_, ?_⟩ <;> omega
  · cases hb : search1 text with
    | none => rw [hb] at h; simp at h
    | some m =>
      obtain ⟨mst, mg, men⟩ := m
      rw [hb] at h
      simp at h
      obtain ⟨h1, h2, h3, h4⟩ := h
      obtain ⟨b1, b2⟩ := search1_bound hb
      subst h3
      refine ⟨?_, ?_, ?_⟩ <;> omega

/-- Fact: `firstMin` returns a member of its input list. -/
lemma firstMin_mem : ∀ {l : List (String × Nat × List Char × Nat)} {x},
    firstMin l = some x → x ∈ l := by
  intro l
  induction l with
  | nil => intro x h; simp [firstMin] at h
  | cons a as ih =>
    intro x h
    unfold firstMin at h
    cases hr : firstMin as with
    | none => rw [hr] at h; simp at h; simp [h]
    | some y =>
      rw [hr] at h
      have h' : (if a.2.1 ≤ y.2.1 then some a else some y) = some x := h
      split at h'
      · simp at h'; simp [h']
      · simp at h'
        subst h'
        exact List.mem_cons_of_mem _ (ih hr)

/-- Embeds `process_formats` (inner recursive worker of `_process_text_format`):
find the first match of each of the three patterns, pick the one with the
smallest start offset (stable sort, so ties keep the bold, highlight, italic
listing order), emit the text before the match literally, recurse into the
group with the matched format appended to the current tags, and recurse on
the text after the match with the current tags unchanged. -/
def processFormats (baseTags : List String) (text : List Char)
    (currentTags : List String) : List Frag :=
  match hm : firstMin (candidates text) with
  | none => applyFormat text currentTags baseTags
  | some (fmt, st, g, en) =>
    have _hb := candidates_bound (firstMin_mem hm)
    (if 0 < st then applyFormat (text.take st) currentTags baseTags
     else []) ++
    processFormats baseTags g (currentTags ++ [fmt]) ++
    (if _h2 : en < text.length then
       processFormats baseTags (text.drop en) currentTags
     else [])
termination_by text.length
decreasing_by
  · omega
  · simp only [List.length_drop]
    omega

/-- Unfolding equation of `processFormats` when no pattern matches. -/
lemma processFormats_eq_none {baseTags : List String} {text : List Char}
    {currentTags : List String} (h : firstMin (candidates text) = none) :
    processFormats baseTags text currentTags =
      applyFormat text currentTags baseTags := by
  rw [processFormats]
  split
  · rfl
  · rename_i fmt st g en heq
    rw [h] at heq
    cases heq

/-- Unfolding equation of `processFormats` when a match is selected. -/
lemma processFormats_eq_some {baseTags : List String} {text : List Char}
    {currentTags : List String} {fmt : String} {st : Nat} {g : List Char}
    {en : Nat} (h : firstMin (candidates text) = some (fmt, st, g, en)) :
    processFormats baseTags text currentTags =
      (if 0 < st then applyFormat (text.take st) currentTags baseTags
       else []) ++
      processFormats baseTags g (currentTags ++ [fmt]) ++
      (if en < text.length then
         processFormats baseTags (text.drop en) currentTags
       else []) := by
  rw [processFormats]
  split
  · rename_i heq
    rw [h] at heq
    cases heq
  · rename_i fmt' st' g' en' heq
    rw [h] at heq
    cases heq
    simp only [dite_eq_ite]

/-- Embeds `_process_text_format`: run `process_formats` with empty current tags. -/
def processTextFormat (text : List Char) (baseTags : List String) :
    List Frag :=
  processFormats baseTags text []

/-- Embeds `TextProcessor.process_heading`: drop the `level + 1` marker characters,
strip, and emit each character with the `h{level}` font tag, then the
terminator. -/
def processHeading (line : List Char) (level : Nat) : List Frag :=
  let titleText := pyStrip (line.drop (level + 1))
  titleText.map (fun c => ([c], getFontTag c ("h" ++ toString level))) ++
    [termFrag]

/-- Embeds `TextProcessor.process_horizontal_line`: the fixed ten-dash placeholder
plus terminator. -/
def processHorizontalLine : List Frag :=
  [(List.replicate 10 '─', ["horizontal_line"]), termFrag]

/-- The fixed quote indent fragment: five spaces, a bar and a space. -/
def quoteIndentFrag : Frag :=
  ([' ', ' ', ' ', ' ', ' ', '│', ' '], ["horizontal_line"])

/-- Embeds `TextProcessor.process_quote`: drop the two-character `"> "` marker,
strip, emit the indent fragment, the inline-formatted text with base tag
`quote`, and the terminator. -/
def processQuote (line : List Char) : List Frag :=
  let quoteText := pyStrip (line.drop 2)
  quoteIndentFrag :: (processTextFormat quoteText ["quote"] ++ [termFrag])

/-- Embeds `TextProcessor.process_normal_line`: an empty line yields only the
terminator; otherwise inline-format the whole line (no base tags). -/
def processNormalLine (line : List Char) : List Frag :=
  if line = [] then [termFrag]
  else processTextFormat line [] ++ [termFrag]

/-- The block kind assigned to a line (spec `BlockKind`). -/
inductive Block where
  | heading : Nat → Block
  | rule : Block
  | quote : Block
  | para : Block
deriving DecidableEq

/-- The line classification performed by the `if`/`elif` chain of
`TextProcessor.parse_markdown`, in the code's order: `'# '`, `'## '`, ...,
`'###### '`, exact `'---'`, `'> '`, else paragraph. -/
def classifyLine (line : List Char) : Block :=
  if ['#', ' '] <+: line then .heading 1
  else if ['#', '#', ' '] <+: line then .heading 2
  else if ['#', '#', '#', ' '] <+: line then .heading 3
  else if ['#', '#', '#', '#', ' '] <+: line then .heading 4
  else if ['#', '#', '#', '#', '#', ' '] <+: line then .heading 5
  else if ['#', '#', '#', '#', '#', '#', ' '] <+: line then .heading 6
  else if line = ['-', '-', '-'] then .rule
  else if ['>', ' '] <+: line then .quote
  else .para

/-- Dispatch of one line to its processor, as in the body of the loop in
`TextProcessor.parse_markdown` (each branch calls the processor shown). -/
def renderLine (line : List Char) : List Frag :=
  match classifyLine line with
  | .heading k => processHeading line k
  | .rule => processHorizontalLine
  | .quote => processQuote line
  | .para => processNormalLine line

/-- Embeds Python `content.split('\n')`: always returns `count('\n') + 1` pieces. -/
def splitNl : List Char → List (List Char)
  | [] => [[]]
  | c :: rest =>
    if c = '\n' then [] :: splitNl rest
    else
      match splitNl rest with
      | [] => [[c]]
      | l :: ls => (c :: l) :: ls

/-- Embeds `TextProcessor.parse_markdown`: split on newlines and render each line
in order. -/
def parseMarkdown (content : List Char) : List Frag :=
  ((splitNl content).map renderLine).flatten

/-- Start offset of an optional labelled match. -/
def startOf (x : Option (String × Nat × List Char × Nat)) : Option Nat :=
  x.map (fun c => c.2.1)

/-- Minimum of two optional offsets (absent values ignored). -/
def optMin : Option Nat → Option Nat → Option Nat
  | none, y => y
  | some a, none => some a
  | some a, some b => some (min a b)

/-- Selection rule written from the spec's words (for claim C1): take each
pattern's first match, select the one with the smallest start offset, and
break ties by the fixed priority bold > highlight > italic. -/
def specPick (text : List Char) : Option (String × Nat × List Char × Nat) :=
  let b := (search2 '*' text).map (fun m => ("bold", m))
  let hl := (search2 '=' text).map (fun m => ("highlight", m))
  let it := (search1 text).map (fun m => ("italic", m))
  match optMin (optMin (startOf b) (startOf hl)) (startOf it) with
  | none => none
  | some m =>
    if startOf b = some m then b
    else if startOf hl = some m then hl
    else it

/-- Classifier written from the spec's priority order (for claim C5):
longest heading marker first, then rule, quote, paragraph. -/
def classifySpec (line : List Char) : Block :=
  if ['#', '#', '#', '#', '#', '#', ' '] <+: line then .heading 6
  else if ['#', '#', '#', '#', '#', ' '] <+: line then .heading 5
  else if ['#', '#', '#', '#', ' '] <+: line then .heading 4
  else if ['#', '#', '#', ' '] <+: line then .heading 3
  else if ['#', '#', ' '] <+: line then .heading 2
  else if ['#', ' '] <+: line then .heading 1
  else if line = ['-', '-', '-'] then .rule
  else if ['>', ' '] <+: line then .quote
  else .para

/-- Literal characters of a fragment list, tags ignored. -/
def fragChars (frags : List Frag) : List Char :=
  (frags.map Prod.fst).flatten

/-- Characters kept by the inline formatter: same match selection as
`processFormats`, with the text before the match, the recursively stripped
group, and the recursively stripped tail after the match (the delimiter
characters of the selected match are dropped). -/
def inlineStrip (text : List Char) : List Char :=
  match hm : firstMin (candidates text) with
  | none => text
  | some (_, st, g, en) =>
    have _hb := candidates_bound (firstMin_mem hm)
    text.take st ++ inlineStrip g ++
    (if _h2 : en < text.length then inlineStrip (text.drop en) else [])
termination_by text.length
decreasing_by
  · omega
  · simp only [List.length_drop]
    omega

/-- Unfolding equation of `inlineStrip` when no pattern matches. -/
lemma inlineStrip_eq_none {text : List Char}
    (h : firstMin (candidates text) = none) : inlineStrip text = text := by
  rw [inlineStrip]
  split
  · rfl
  · rename_i fmt st g en heq
    rw [h] at heq
    cases heq

/-- Unfolding equation of `inlineStrip` when a match is selected. -/
lemma inlineStrip_eq_some {text : List Char} {fmt : String} {st : Nat}
    {g : List Char} {en : Nat}
    (h : firstMin (candidates text) = some (fmt, st, g, en)) :
    inlineStrip text = text.take st ++ inlineStrip g ++
      (if en < text.length then inlineStrip (text.drop en) else []) := by
  rw [inlineStrip]
  split
  · rename_i heq
    rw [h] at heq
    cases heq
  · rename_i fmt' st' g' en' heq
    rw [h] at heq
    cases heq
    simp only [dite_eq_ite]

/-- Per-line literal characters actually produced by the renderer: heading
and quote bodies are stripped of their marker and trimmed, the rule line is
replaced by the ten-dash placeholder, quote lines gain the fixed indent, and
inline delimiters are dropped by `inlineStrip`. -/
def lineChars (line : List Char) : List Char :=
  match classifyLine line with
  | .heading k => pyStrip (line.drop (k + 1))
  | .rule => List.replicate 10 '─'
  | .quote => [' ', ' ', ' ', ' ', ' ', '│', ' '] ++
      inlineStrip (pyStrip (line.drop 2))
  | .para => if line = [] then [] else inlineStrip line

/-- Per-line literal characters as asserted by the round-trip claim C3:
only marker prefixes are stripped and rule lines replaced. -/
def claimedLineChars (line : List Char) : List Char :=
  match classifyLine line with
  | .heading k => line.drop (k + 1)
  | .rule => List.replicate 10 '─'
  | .quote => line.drop 2
  | .para => line

/-- Elements of a prefix agree with the elements of the longer list. -/
lemma prefix_getElem {p l : List Char} (h : p <+: l) (i : Nat)
    (hi : i < p.length) (hl : i < l.length) : l[i] = p[i] := by
  obtain ⟨t, ht⟩ := h
  subst ht
  exact List.getElem_append_left hi

/-- Two lists cannot both be prefixes of `l` when they disagree at some
index covered by both. -/
lemma two_prefix_conflict {l p q : List Char} (hp : p <+: l)
    (hq : q <+: l) (i : Nat) (hip : i < p.length) (hiq : i < q.length)
    (hne : p.get ⟨i, hip⟩ ≠ q.get ⟨i, hiq⟩) : False := by
  have hil : i < l.length := by
    obtain ⟨t, ht⟩ := hp
    subst ht
    simp only [List.length_append]
    omega
  have h1 : l[i] = p[i] := prefix_getElem hp i hip hil
  have h2 : l[i] = q[i] := prefix_getElem hq i hiq hil
  rw [h1] at h2
  rw [List.get_eq_getElem, List.get_eq_getElem] at hne
  exact hne h2

/-- Appending distributes over literal-character extraction. -/
lemma fragChars_append (a b : List Frag) :
    fragChars (a ++ b) = fragChars a ++ fragChars b := by
  simp [fragChars]

/-- The literal characters of `applyFormat` are the input text itself. -/
lemma fragChars_applyFormat (text : List Char) (tags baseTags : List String) :
    fragChars (applyFormat text tags baseTags) = text := by
  induction text with
  | nil => rfl
  | cons c cs ih =>
    simp only [applyFormat, List.map_cons] at *
    by_cases h : tags ++ baseTags = []
    · simp only [if_pos h] at *
      simp [fragChars] at *
      exact ih
    · simp only [if_neg h] at *
      simp [fragChars] at *
      exact ih

/-- Membership is preserved by sorted insertion. -/
lemma mem_insertStr {a b : String} {l : List String} (h : a ∈ l) :
    a ∈ insertStr b l := by
  induction l with
  | nil => cases h
  | cons x xs ih =>
    unfold insertStr
    split
    · rcases List.mem_cons.mp h with h1 | h1
      · simp [h1]
      · simp [ih h1]
    · simp [List.mem_cons.mp h]

/-- The inserted element is a member of the result. -/
lemma self_mem_insertStr (a : String) (l : List String) :
    a ∈ insertStr a l := by
  induction l with
  | nil => simp [insertStr]
  | cons x xs ih =>
    unfold insertStr
    split
    · simp [ih]
    · simp

/-- Sorting preserves membership. -/
lemma mem_isort {a : String} {l : List String} (h : a ∈ l) : a ∈ isort l := by
  induction l with
  | nil => cases h
  | cons x xs ih =>
    unfold isort
    rcases List.mem_cons.mp h with h1 | h1
    · rw [h1]; exact self_mem_insertStr x (isort xs)
    · exact mem_insertStr (ih h1)

/-- Fuel-indexed form: the literal characters of `processFormats` are the
characters kept by `inlineStrip` (tags do not affect the emitted text). -/
lemma fragChars_processFormats_aux : ∀ (n : Nat) (text : List Char),
    text.length ≤ n → ∀ (tags baseTags : List String),
    fragChars (processFormats baseTags text tags) = inlineStrip text := by
  intro n
  induction n with
  | zero =>
    intro text hlen tags baseTags
    have h0 : text = [] := List.eq_nil_of_length_eq_zero (by omega)
    subst h0
    rw [@processFormats_eq_none baseTags [] tags rfl,
      @inlineStrip_eq_none [] rfl]
    exact fragChars_applyFormat [] tags baseTags
  | succ n ih =>
    intro text hlen tags baseTags
    cases hm : firstMin (candidates text) with
    | none =>
      rw [processFormats_eq_none hm, inlineStrip_eq_none hm]
      exact fragChars_applyFormat text tags baseTags
    | some m =>
      obtain ⟨fmt, st, g, en⟩ := m
      obtain ⟨hb1, hb2, hb3⟩ := candidates_bound (firstMin_mem hm)
      rw [processFormats_eq_some hm, inlineStrip_eq_some hm]
      rw [fragChars_append, fragChars_append]
      congr 1
      congr 1
      · by_cases hst : 0 < st
        · rw [if_pos hst]
          exact fragChars_applyFormat (text.take st) tags baseTags
        · rw [if_neg hst]
          have h0 : st = 0 := by omega
          subst h0
          simp [fragChars]
      · exact ih g (by omega) (tags ++ [fmt]) baseTags
      · by_cases h2 : en < text.length
        · rw [if_pos h2, if_pos h2]
          exact ih (text.drop en) (by simp only [List.length_drop]; omega)
            tags baseTags
        · rw [if_neg h2, if_neg h2]
          rfl

/-- Literal characters of the inline formatter, closed form. -/
lemma fragChars_processFormats (baseTags : List String) (text : List Char)
    (tags : List String) :
    fragChars (processFormats baseTags text tags) = inlineStrip text :=
  fragChars_processFormats_aux text.length text le_rfl tags baseTags

/-- Every fragment of `applyFormat` has a nonempty tag list. -/
lemma applyFormat_tag_ne_nil {text : List Char} {tags baseTags : List String}
    {f : Frag} (hf : f ∈ applyFormat text tags baseTags) : f.2 ≠ [] := by
  unfold applyFormat at hf
  rw [List.mem_map] at hf
  obtain ⟨c, _, hfe⟩ := hf
  simp only at hfe
  split at hfe
  · rw [← hfe]; simp
  · rw [← hfe]; simp

/-- A tag present in `tags ++ baseTags` is a component of every fragment tag
emitted by `applyFormat`. -/
lemma applyFormat_tag_mem {s : String} {text : List Char}
    {tags baseTags : List String} (hs : s ∈ tags ++ baseTags) {f : Frag}
    (hf : f ∈ applyFormat text tags baseTags) : s ∈ f.2 := by
  unfold applyFormat at hf
  rw [List.mem_map] at hf
  obtain ⟨c, _, hfe⟩ := hf
  have hne : ¬ (tags ++ baseTags = []) := by
    intro h0
    rw [h0] at hs
    cases hs
  simp only [if_neg hne] at hfe
  rw [← hfe]
  exact List.mem_cons_of_mem _ (mem_isort hs)

/-- Fuel-indexed: every fragment emitted by `processFormats` has a nonempty
tag list (so none of them equals the bare terminator fragment). -/
lemma processFormats_tag_ne_nil_aux : ∀ (n : Nat) (text : List Char),
    text.length ≤ n → ∀ (tags baseTags : List String) (f : Frag),
    f ∈ processFormats baseTags text tags → f.2 ≠ [] := by
  intro n
  induction n with
  | zero =>
    intro text hlen tags baseTags f hf
    have h0 : text = [] := List.eq_nil_of_length_eq_zero (by omega)
    subst h0
    rw [@processFormats_eq_none baseTags [] tags rfl] at hf
    exact applyFormat_tag_ne_nil hf
  | succ n ih =>
    intro text hlen tags baseTags f hf
    cases hm : firstMin (candidates text) with
    | none =>
      rw [processFormats_eq_none hm] at hf
      exact applyFormat_tag_ne_nil hf
    | some m =>
      obtain ⟨fmt, st, g, en⟩ := m
      obtain ⟨hb1, hb2, hb3⟩ := candidates_bound (firstMin_mem hm)
      rw [processFormats_eq_some hm] at hf
      rw [List.mem_append, List.mem_append] at hf
      rcases hf with (hf | hf) | hf
      · split at hf
        · exact applyFormat_tag_ne_nil hf
        · cases hf
      · exact ih g (by omega) (tags ++ [fmt]) baseTags f hf
      · split at hf
        · exact ih (text.drop en) (by simp only [List.length_drop]; omega)
            tags baseTags f hf
        · cases hf

/-- Fuel-indexed: a tag in `tags ++ baseTags` is a component of every
fragment tag emitted by `processFormats` (the recursion only ever extends
the current tags). -/
lemma processFormats_tag_mem_aux {s : String} : ∀ (n : Nat)
    (text : List Char), text.length ≤ n → ∀ (tags baseTags : List String),
    s ∈ tags ++ baseTags → ∀ f ∈ processFormats baseTags text tags,
    s ∈ f.2 := by
  intro n
  induction n with
  | zero =>
    intro text hlen tags baseTags hs f hf
    have h0 : text = [] := List.eq_nil_of_length_eq_zero (by omega)
    subst h0
    rw [@processFormats_eq_none baseTags [] tags rfl] at hf
    exact applyFormat_tag_mem hs hf
  | succ n ih =>
    intro text hlen tags baseTags hs f hf
    cases hm : firstMin (candidates text) with
    | none =>
      rw [processFormats_eq_none hm] at hf
      exact applyFormat_tag_mem hs hf
    | some m =>
      obtain ⟨fmt, st, g, en⟩ := m
      obtain ⟨hb1, hb2, hb3⟩ := candidates_bound (firstMin_mem hm)
      rw [processFormats_eq_some hm] at hf
      rw [List.mem_append, List.mem_append] at hf
      rcases hf with (hf | hf) | hf
      · split at hf
        · exact applyFormat_tag_mem hs hf
        · cases hf
      · have hs' : s ∈ (tags ++ [fmt]) ++ baseTags := by
          rcases List.mem_append.mp hs with h1 | h1
          · exact List.mem_append_left _ (List.mem_append_left _ h1)
          · exact List.mem_append_right _ h1
        exact ih g (by omega) (tags ++ [fmt]) baseTags hs' f hf
      · split at hf
        · exact ih (text.drop en) (by simp only [List.length_drop]; omega)
            tags baseTags hs f hf
        · cases hf

/-- Number of terminator fragments in a fragment list. -/
def countTerm (frags : List Frag) : Nat :=
  frags.countP (fun f => decide (f = termFrag))

/-- Fragments with a nonempty tag list never count as terminators. -/
lemma countTerm_processFormats (baseTags : List String) (text : List Char)
    (tags : List String) :
    countTerm (processFormats baseTags text tags) = 0 := by
  unfold countTerm
  rw [List.countP_eq_zero]
  intro f hf
  have hne := processFormats_tag_ne_nil_aux text.length text le_rfl tags
    baseTags f hf
  simp only [decide_eq_true_eq]
  intro heq
  rw [heq] at hne
  exact hne rfl

/-- Literal characters of a cons fragment list. -/
lemma fragChars_cons (f : Frag) (rest : List Frag) :
    fragChars (f :: rest) = f.1 ++ fragChars rest := by
  simp [fragChars]

/-- Literal characters of per-character fragments are the characters. -/
lemma fragChars_map_single (t : List Char) (g : Char → List String) :
    fragChars (t.map (fun c => ([c], g c))) = t := by
  induction t with
  | nil => rfl
  | cons c cs ih => simp [fragChars] at *; exact ih

/-- Decomposition of a rendered line: some prefix with no terminator
fragment, followed by exactly the final terminator. -/
lemma renderLine_decomp (l : List Char) :
    ∃ pre, renderLine l = pre ++ [termFrag] ∧ countTerm pre = 0 := by
  cases hcl : classifyLine l with
  | heading k =>
    simp only [renderLine, hcl]
    refine ⟨(pyStrip (l.drop (k + 1))).map
      (fun c => ([c], getFontTag c ("h" ++ toString k))), rfl, ?_⟩
    unfold countTerm
    rw [List.countP_eq_zero]
    intro f hf
    rw [List.mem_map] at hf
    obtain ⟨c, _, hfe⟩ := hf
    simp only [decide_eq_true_eq]
    intro heq
    rw [heq] at hfe
    unfold termFrag at hfe
    unfold getFontTag at hfe
    split at hfe
    · cases hfe
    · cases hfe
  | rule =>
    simp only [renderLine, hcl]
    exact ⟨[(List.replicate 10 '─', ["horizontal_line"])], rfl, by decide⟩
  | quote =>
    simp only [renderLine, hcl]
    refine ⟨quoteIndentFrag :: processTextFormat (pyStrip (l.drop 2))
      ["quote"], by simp [processQuote], ?_⟩
    have h1 : countTerm (processTextFormat (pyStrip (l.drop 2)) ["quote"])
        = 0 := countTerm_processFormats ["quote"] (pyStrip (l.drop 2)) []
    unfold countTerm at *
    rw [List.countP_cons, h1]
    simp [quoteIndentFrag, termFrag]
  | para =>
    simp only [renderLine, hcl]
    unfold processNormalLine
    split
    · exact ⟨[], rfl, rfl⟩
    · refine ⟨processTextFormat l [], rfl, ?_⟩
      exact countTerm_processFormats [] l []

/-- Every rendered line contains exactly one terminator fragment. -/
lemma renderLine_count (l : List Char) : countTerm (renderLine l) = 1 := by
  obtain ⟨pre, hd, hc⟩ := renderLine_decomp l
  rw [hd]
  unfold countTerm at *
  rw [List.countP_append, hc]
  decide

/-- Every rendered line ends with the terminator fragment. -/
lemma renderLine_last (l : List Char) :
    (renderLine l).getLast? = some termFrag := by
  obtain ⟨pre, hd, _⟩ := renderLine_decomp l
  rw [hd]
  exact List.getLast?_concat pre

/-- Literal characters of one rendered line: the kept line text plus the
newline of the terminator. -/
lemma fragChars_renderLine (l : List Char) :
    fragChars (renderLine l) = lineChars l ++ ['\n'] := by
  cases hcl : classifyLine l with
  | heading k =>
    simp only [renderLine, lineChars, hcl]
    unfold processHeading
    rw [fragChars_append, fragChars_map_single]
    rfl
  | rule =>
    simp only [renderLine, lineChars, hcl]
    simp [processHorizontalLine, fragChars, termFrag]
  | quote =>
    simp only [renderLine, lineChars, hcl]
    unfold processQuote
    simp only []
    rw [fragChars_cons, fragChars_append]
    unfold processTextFormat
    rw [fragChars_processFormats]
    simp [quoteIndentFrag, fragChars, termFrag]
  | para =>
    simp only [renderLine, lineChars, hcl]
    unfold processNormalLine
    split
    · rename_i h0
      simp [h0, fragChars, termFrag]
    · rw [fragChars_append]
      unfold processTextFormat
      rw [fragChars_processFormats]
      rfl

/-- A split never returns an empty list of lines. -/
lemma splitNl_ne_nil (s : List Char) : splitNl s ≠ [] := by
  cases s with
  | nil => simp [splitNl]
  | cons c rest =>
    unfold splitNl
    split
    · simp
    · cases splitNl rest <;> simp

/-- Python `split('\n')` returns one more piece than there are newlines. -/
lemma splitNl_length (s : List Char) :
    (splitNl s).length = s.count '\n' + 1 := by
  induction s with
  | nil => rfl
  | cons c rest ih =>
    unfold splitNl
    split
    · rename_i hc
      subst hc
      simp only [List.length_cons, ih, List.count_cons]
      simp
    · rename_i hc
      cases hs : splitNl rest with
      | nil => exact absurd hs (splitNl_ne_nil rest)
      | cons l ls =>
        rw [hs] at ih
        simp only [List.length_cons] at *
        rw [List.count_cons]
        simp [hc]
        omega

/-- The code's shortest-marker-first classifier agrees with the spec's
longest-marker-first one, because no two heading markers are prefixes of
one another (the shorter marker has a space where the longer has a hash). -/
lemma classifyLine_eq_classifySpec (l : List Char) :
    classifyLine l = classifySpec l := by
  by_cases p1 : ['#', ' '] <+: l
  · have n2 : ¬ (['#', '#', ' '] <+: l) := fun p2 =>
      two_prefix_conflict p1 p2 1 (by decide) (by decide) (by decide)
    have n3 : ¬ (['#', '#', '#', ' '] <+: l) := fun p3 =>
      two_prefix_conflict p1 p3 1 (by decide) (by decide) (by decide)
    have n4 : ¬ (['#', '#', '#', '#', ' '] <+: l) := fun p4 =>
      two_prefix_conflict p1 p4 1 (by decide) (by decide) (by decide)
    have n5 : ¬ (['#', '#', '#', '#', '#', ' '] <+: l) := fun p5 =>
      two_prefix_conflict p1 p5 1 (by decide) (by decide) (by decide)
    have n6 : ¬ (['#', '#', '#', '#', '#', '#', ' '] <+: l) := fun p6 =>
      two_prefix_conflict p1 p6 1 (by decide) (by decide) (by decide)
    simp [classifyLine, classifySpec, p1, n2, n3, n4, n5, n6]
  · by_cases p2 : ['#', '#', ' '] <+: l
    · have n3 : ¬ (['#', '#', '#', ' '] <+: l) := fun p3 =>
        two_prefix_conflict p2 p3 2 (by decide) (by decide) (by decide)
      have n4 : ¬ (['#', '#', '#', '#', ' '] <+: l) := fun p4 =>
        two_prefix_conflict p2 p4 2 (by decide) (by decide) (by decide)
      have n5 : ¬ (['#', '#', '#', '#', '#', ' '] <+: l) := fun p5 =>
        two_prefix_conflict p2 p5 2 (by decide) (by decide) (by decide)
      have n6 : ¬ (['#', '#', '#', '#', '#', '#', ' '] <+: l) := fun p6 =>
        two_prefix_conflict p2 p6 2 (by decide) (by decide) (by decide)
      simp [classifyLine, classifySpec, p1, p2, n3, n4, n5, n6]
    · by_cases p3 : ['#', '#', '#', ' '] <+: l
      · have n4 : ¬ (['#', '#', '#', '#', ' '] <+: l) := fun p4 =>
          two_prefix_conflict p3 p4 3 (by decide) (by decide) (by decide)
        have n5 : ¬ (['#', '#', '#', '#', '#', ' '] <+: l) := fun p5 =>
          two_prefix_conflict p3 p5 3 (by decide) (by decide) (by decide)
        have n6 : ¬ (['#', '#', '#', '#', '#', '#', ' '] <+: l) := fun p6 =>
          two_prefix_conflict p3 p6 3 (by decide) (by decide) (by decide)
        simp [classifyLine, classifySpec, p1, p2, p3, n4, n5, n6]
      · by_cases p4 : ['#', '#', '#', '#', ' '] <+: l
        · have n5 : ¬ (['#', '#', '#', '#', '#', ' '] <+: l) := fun p5 =>
            two_prefix_conflict p4 p5 4 (by decide) (by decide) (by decide)
          have n6 : ¬ (['#', '#', '#', '#', '#', '#', ' '] <+: l) :=
            fun p6 =>
            two_prefix_conflict p4 p6 4 (by decide) (by decide) (by decide)
          simp [classifyLine, classifySpec, p1, p2, p3, p4, n5, n6]
        · by_cases p5 : ['#', '#', '#', '#', '#', ' '] <+: l
          · have n6 : ¬ (['#', '#', '#', '#', '#', '#', ' '] <+: l) :=
              fun p6 =>
              two_prefix_conflict p5 p6 5 (by decide) (by decide)
                (by decide)
            simp [classifyLine, classifySpec, p1, p2, p3, p4, p5, n6]
          · by_cases p6 : ['#', '#', '#', '#', '#', '#', ' '] <+: l
            · simp [classifyLine, classifySpec, p1, p2, p3, p4, p5, p6]
            · simp [classifyLine, classifySpec, p1, p2, p3, p4, p5, p6]

/-- A line starting with seven hashes matches no heading marker, is not the
rule line and is not a quote, so it classifies as a paragraph. -/
lemma classifyLine_seven_hash {l : List Char}
    (h : ['#', '#', '#', '#', '#', '#', '#'] <+: l) :
    classifyLine l = .para := by
  have n1 : ¬ (['#', ' '] <+: l) := fun p =>
    two_prefix_conflict p h 1 (by decide) (by decide) (by decide)
  have n2 : ¬ (['#', '#', ' '] <+: l) := fun p =>
    two_prefix_conflict p h 2 (by decide) (by decide) (by decide)
  have n3 : ¬ (['#', '#', '#', ' '] <+: l) := fun p =>
    two_prefix_conflict p h 3 (by decide) (by decide) (by decide)
  have n4 : ¬ (['#', '#', '#', '#', ' '] <+: l) := fun p =>
    two_prefix_conflict p h 4 (by decide) (by decide) (by decide)
  have n5 : ¬ (['#', '#', '#', '#', '#', ' '] <+: l) := fun p =>
    two_prefix_conflict p h 5 (by decide) (by decide) (by decide)
  have n6 : ¬ (['#', '#', '#', '#', '#', '#', ' '] <+: l) := fun p =>
    two_prefix_conflict p h 6 (by decide) (by decide) (by decide)
  have nr : ¬ (l = ['-', '-', '-']) := by
    intro he
    obtain ⟨t, ht⟩ := h
    rw [he] at ht
    have := congrArg List.length ht
    simp [List.length_append] at this
  have nq : ¬ (['>', ' '] <+: l) := fun p =>
    two_prefix_conflict p h 0 (by decide) (by decide) (by decide)
  simp [classifyLine, n1, n2, n3, n4, n5, n6, nr, nq]

/-- Terminator count over a rendered document: one per line. -/
lemma countTerm_flatten (ls : List (List Char)) :
    countTerm ((ls.map renderLine).flatten) = ls.length := by
  induction ls with
  | nil => rfl
  | cons l rest ih =>
    simp only [List.map_cons, List.flatten_cons]
    unfold countTerm at *
    rw [List.countP_append, ih]
    have := renderLine_count l
    unfold countTerm at this
    simp only [List.length_cons]
    omega

/-- The last fragment of a nonempty rendered document is the terminator. -/
lemma getLast_flatten (ls : List (List Char)) (h : ls ≠ []) :
    ((ls.map renderLine).flatten).getLast? = some termFrag := by
  induction ls with
  | nil => exact absurd rfl h
  | cons l rest ih =>
    cases rest with
    | nil =>
      simp only [List.map_cons, List.map_nil, List.flatten_cons,
        List.flatten_nil, List.append_nil]
      exact renderLine_last l
    | cons l2 rest2 =>
      simp only [List.map_cons, List.flatten_cons]
      have ih2 := ih (by simp)
      simp only [List.map_cons, List.flatten_cons] at ih2
      rw [List.getLast?_append, ih2]
      rfl

/-- Characters of a rendered document, line by line. -/
lemma fragChars_flatten_render (ls : List (List Char)) :
    fragChars ((ls.map renderLine).flatten) =
      (ls.map (fun l => lineChars l ++ ['\n'])).flatten := by
  induction ls with
  | nil => rfl
  | cons l rest ih =>
    simp only [List.map_cons, List.flatten_cons]
    rw [fragChars_append, fragChars_renderLine, ih]

/-- The code's stable-sort-then-head selection equals the spec's rule:
smallest start offset, ties broken bold > highlight > italic. -/
lemma firstMin_eq_specPick (text : List Char) :
    firstMin (candidates text) = specPick text := by
  unfold candidates specPick
  cases hb : search2 '*' text <;> cases hh : search2 '=' text <;>
    cases hi : search1 text <;>
    simp [startOf, optMin, firstMin, Nat.min_def] <;>
      (try split_ifs) <;>
      (first | rfl | omega | (exfalso; omega) | (simp_all <;> omega))

/-- A text containing no occurrence of the delimiter has no two-delimiter
match. -/
lemma search2_eq_none {d : Char} : ∀ {s : List Char},
    (∀ c ∈ s, ¬ c = d) → search2 d s = none := by
  intro s
  induction s with
  | nil => intro _; rfl
  | cons c rest ih =>
    intro h
    unfold search2
    rw [if_neg ?_]
    · rw [ih (fun x hx => h x (List.mem_cons_of_mem c hx))]
      rfl
    · intro hc
      exact h c (List.mem_cons_self c rest) hc.1

/-- A text containing neither `'*'` nor `'_'` has no italic match. -/
lemma search1_eq_none : ∀ {s : List Char},
    (∀ c ∈ s, ¬ (c = '*' ∨ c = '_')) → search1 s = none := by
  intro s
  induction s with
  | nil => intro _; rfl
  | cons c rest ih =>
    intro h
    unfold search1
    rw [if_neg (h c (List.mem_cons_self c rest))]
    rw [ih (fun x hx => h x (List.mem_cons_of_mem c hx))]
    rfl

/-- A whitespace character is not one of the three marker characters. -/
lemma isPySpace_not_marker {c : Char} (h : isPySpace c = true) :
    ¬ c = '*' ∧ ¬ c = '=' ∧ ¬ (c = '*' ∨ c = '_') := by
  unfold isPySpace at h
  rw [decide_eq_true_iff] at h
  rcases h with h | h | h | h | h | h <;> subst h <;> decide

/-- A line whose stripped form is empty consists of whitespace only. -/
lemma pyStrip_eq_nil_all {line : List Char} (h : pyStrip line = []) :
    ∀ c ∈ line, isPySpace c = true := by
  unfold pyStrip at h
  rw [List.reverse_eq_nil_iff, List.dropWhile_eq_nil_iff] at h
  intro c hc
  rw [← List.takeWhile_append_dropWhile isPySpace line] at hc
  rcases List.mem_append.mp hc with h1 | h1
  · exact List.mem_takeWhile_imp h1
  · exact h c (List.mem_reverse.mpr h1)

/-- C1: when at least one of the three patterns matches, `process_formats`
selects the pattern-first-match with the smallest start offset, breaking
start-offset ties by the fixed priority bold > highlight > italic (the
code's stable sort keeps listing order); in particular on `"==*x*=="` the
highlight match at offset 0 is selected before the italic match. -/
theorem C1_match_selection :
    (∀ text : List Char, firstMin (candidates text) = specPick text) ∧
    firstMin (candidates ("==*x*==".data)) =
      some ("highlight", 0, "*x*".data, 7) :=
  ⟨firstMin_eq_specPick, by decide⟩

/-- C2: whenever a match is selected, the matched inner text is resolved
recursively with the matched kind appended to the inherited kinds (list
append realizes the spec's set union: a kind never re-matches inside its
own inner text, because the inner text of a non-greedy match cannot contain
its own closing delimiter), while the text strictly after the match end is
resolved with the inherited kinds unchanged; `"**_hi_**"` with no inherited
kinds yields exactly the characters of `"hi"` carrying both `bold` and
`italic` components, and nothing follows the match. -/
theorem C2_nested_resolution :
    (∀ (baseTags : List String) (text : List Char) (tags : List String)
        (fmt : String) (st : Nat) (g : List Char) (en : Nat),
      firstMin (candidates text) = some (fmt, st, g, en) →
      processFormats baseTags text tags =
        (if 0 < st then applyFormat (text.take st) tags baseTags
         else []) ++
        processFormats baseTags g (tags ++ [fmt]) ++
        (if en < text.length then
           processFormats baseTags (text.drop en) tags
         else [])) ∧
    processFormats [] ("**_hi_**".data) [] =
      [(['h'], ["en", "bold", "italic"]),
       (['i'], ["en", "bold", "italic"])] := by
  constructor
  · intro baseTags text tags fmt st g en h
    exact processFormats_eq_some h
  · rw [processFormats_eq_some
      (by decide : firstMin (candidates ("**_hi_**".data)) =
        some ("bold", 0, "_hi_".data, 8))]
    rw [processFormats_eq_some
      (by decide : firstMin (candidates ("_hi_".data)) =
        some ("italic", 0, "hi".data, 4))]
    rw [@processFormats_eq_none [] ("hi".data) (([] ++ ["bold"]) ++
      ["italic"]) (by decide)]
    rw [if_neg (by decide : ¬ (4 < ("_hi_".data).length))]
    rw [if_neg (by decide : ¬ (8 < ("**_hi_**".data).length))]
    decide

/-- Witness for C2: the unfolding equation applied to `"**_hi_**"`,
inherited kinds empty, where the bold match at offset 0 spans the whole
text. -/
theorem C2_nested_resolution_witness :
    processFormats [] ("**_hi_**".data) [] =
      (if 0 < 0 then applyFormat (("**_hi_**".data).take 0) [] []
       else []) ++
      processFormats [] ("_hi_".data) ([] ++ ["bold"]) ++
      (if 8 < ("**_hi_**".data).length then
         processFormats [] (("**_hi_**".data).drop 8) []
       else []) :=
  C2_nested_resolution.1 [] ("**_hi_**".data) [] "bold" 0 ("_hi_".data) 8
    (by decide)

/-- C5: the code's shortest-marker-first classification chain computes the
same function as the spec's longest-marker-first priority order, because no
two heading markers are prefixes of one another; `"### Title"` classifies
as heading 3, and any line starting with seven hashes falls through to
paragraph. -/
theorem C5_classification :
    (∀ l : List Char, classifyLine l = classifySpec l) ∧
    classifyLine ("### Title".data) = Block.heading 3 ∧
    (∀ l : List Char, ['#', '#', '#', '#', '#', '#', '#'] <+: l →
      classifyLine l = Block.para) :=
  ⟨classifyLine_eq_classifySpec, by decide,
    fun _ h => classifyLine_seven_hash h⟩

/-- Witness for C5: the seven-hash clause applied to `"####### x"`. -/
theorem C5_classification_witness :
    classifyLine ("####### x".data) = Block.para :=
  C5_classification.2.2 ("####### x".data) (by decide)

/-- C6: a heading line is rendered by dropping exactly `level + 1` leading
characters, trimming, and emitting each remaining character with only the
script component and the `h{level}` component (no emphasis components, no
inline parsing), followed by one terminator; `"# **bold**"` keeps its
asterisks literally. -/
theorem C6_heading_render :
    (∀ (line : List Char) (level : Nat),
      processHeading line level =
        (pyStrip (line.drop (level + 1))).map
          (fun c => ([c], [(if isChineseChar c then "zh" else "en"),
            "h" ++ toString level])) ++ [termFrag]) ∧
    processHeading ("# **bold**".data) 1 =
      [(['*'], ["en", "h1"]), (['*'], ["en", "h1"]), (['b'], ["en", "h1"]),
       (['o'], ["en", "h1"]), (['l'], ["en", "h1"]), (['d'], ["en", "h1"]),
       (['*'], ["en", "h1"]), (['*'], ["en", "h1"]), termFrag] := by
  constructor
  · intro line level
    unfold processHeading
    refine congrArg (· ++ [termFrag]) ?_
    apply List.map_congr_left
    intro c _
    unfold getFontTag
    rw [if_neg ?_]
    · intro heq
      have hlen := congrArg String.length heq
      rw [String.length_append] at hlen
      have e1 : "h".length = 1 := by decide
      have e2 : "".length = 0 := by decide
      omega
  · decide

/-- C8: the script classifier is total and returns CJK exactly on the
inclusive code-point range U+4E00 to U+9FFF; the Latin letter A is not
CJK. -/
theorem C8_script_classifier :
    (∀ c : Char, isChineseChar c = true ↔
      (0x4E00 ≤ c.toNat ∧ c.toNat ≤ 0x9FFF)) ∧
    isChineseChar 'A' = false := by
  constructor
  · intro c
    unfold isChineseChar
    rw [decide_eq_true_iff]
    constructor
    · intro ⟨h1, h2⟩
      exact ⟨h1, h2⟩
    · intro ⟨h1, h2⟩
      exact ⟨h1, h2⟩
  · decide

/-- C9: whenever `process_formats` selects a match, the matched inner text
is at least two characters shorter than the enclosing text and the match
end offset is at least 2 and at most the text length, so both recursive
calls are on strictly shorter strings and the recursion is well-founded
with depth bounded by the input length. -/
theorem C9_recursion_decreases :
    ∀ (text : List Char) (fmt : String) (st : Nat) (g : List Char)
      (en : Nat),
      firstMin (candidates text) = some (fmt, st, g, en) →
      g.length + 2 ≤ text.length ∧ 2 ≤ en ∧ en ≤ text.length :=
  fun _ _ _ _ _ h => candidates_bound (firstMin_mem h)

/-- Witness for C9: the italic match selected on `"*a*"` has inner text
`"a"`, two characters shorter, ending at offset 3. -/
theorem C9_recursion_decreases_witness :
    ("a".data).length + 2 ≤ ("*a*".data).length ∧ 2 ≤ 3 ∧
      3 ≤ ("*a*".data).length :=
  C9_recursion_decreases ("*a*".data) "italic" 0 ("a".data) 3 (by decide)

/-- C3 counterexample: the round-trip claim fails on the document
`"**x**"`: the renderer emits only `"x\n"` (inline emphasis delimiters are
dropped), while the claim's allowed substitutions (marker prefixes
stripped, rule placeholder) leave `"**x**\n"`. -/
theorem C3_roundtrip_counterexample :
    fragChars (parseMarkdown ("**x**".data)) = "x\n".data ∧
    ((splitNl ("**x**".data)).map
        (fun l => claimedLineChars l ++ ['\n'])).flatten = "**x**\n".data ∧
    ("x\n".data : List Char) ≠ ("**x**\n".data : List Char) := by
  refine ⟨?_, by decide, by decide⟩
  unfold parseMarkdown
  rw [fragChars_flatten_render]
  rw [(by decide : splitNl ("**x**".data) = ["**x**".data])]
  simp only [List.map_cons, List.map_nil, List.flatten_cons,
    List.flatten_nil]
  have hcl : classifyLine ("**x**".data) = Block.para := by decide
  simp only [lineChars, hcl]
  rw [if_neg (by decide : ¬ ("**x**".data = ([] : List Char)))]
  rw [inlineStrip_eq_some
    (by decide : firstMin (candidates ("**x**".data)) =
      some ("bold", 0, "x".data, 5))]
  rw [@inlineStrip_eq_none ("x".data) (by decide)]
  rw [if_neg (by decide : ¬ (5 < ("**x**".data).length))]
  decide

/-- C3 amended: concatenating the literal characters of `render(doc)`
reproduces the document line by line with one terminator per line, where
each line contributes: for a heading, the marker-stripped and trimmed text;
for a rule, the fixed ten-character placeholder; for a quote, the fixed
five-space-plus-bar indent followed by the marker-stripped, trimmed text
with inline emphasis delimiters removed; for a paragraph, the line text
with inline emphasis delimiters removed (empty line: nothing). -/
theorem C3_roundtrip_amended (content : List Char) :
    fragChars (parseMarkdown content) =
      ((splitNl content).map (fun l => lineChars l ++ ['\n'])).flatten := by
  unfold parseMarkdown
  exact fragChars_flatten_render (splitNl content)

/-- C4 counterexample: the whitespace-only line `" "` has empty trimmed
content, yet `process_normal_line` (which tests `if not line`, i.e. the
untrimmed line) emits a space fragment before the terminator, not only the
terminator. -/
theorem C4_blank_line_counterexample :
    pyStrip (" ".data) = [] ∧
    processNormalLine (" ".data) = [([' '], ["en"]), termFrag] ∧
    processNormalLine (" ".data) ≠ [termFrag] := by
  have h2 : processNormalLine (" ".data) = [([' '], ["en"]), termFrag] := by
    unfold processNormalLine processTextFormat
    rw [if_neg (by decide : ¬ (" ".data = ([] : List Char)))]
    rw [@processFormats_eq_none [] (" ".data) [] (by decide)]
    decide
  refine ⟨by decide, h2, ?_⟩
  rw [h2]
  decide

/-- C4 amended: only the literally empty paragraph line emits exactly one
terminator fragment and no text fragments; every paragraph line whose
trimmed content is empty (in particular every nonempty whitespace-only
line) emits each of its whitespace characters as an ordinary text fragment
tagged `en`, followed by the terminator. -/
theorem C4_empty_paragraph_amended :
    processNormalLine [] = [termFrag] ∧
    (∀ line : List Char, pyStrip line = [] →
      processNormalLine line =
        line.map (fun c => ([c], ["en"])) ++ [termFrag]) ∧
    processNormalLine (" ".data) = [([' '], ["en"]), termFrag] := by
  have key : ∀ line : List Char, pyStrip line = [] →
      processNormalLine line =
        line.map (fun c => ([c], ["en"])) ++ [termFrag] := by
    intro line hstrip
    have hw := pyStrip_eq_nil_all hstrip
    by_cases h0 : line = []
    · subst h0
      decide
    · unfold processNormalLine processTextFormat
      rw [if_neg h0]
      have hb : search2 '*' line = none := search2_eq_none
        (fun c hc => (isPySpace_not_marker (hw c hc)).1)
      have hh : search2 '=' line = none := search2_eq_none
        (fun c hc => (isPySpace_not_marker (hw c hc)).2.1)
      have hi : search1 line = none := search1_eq_none
        (fun c hc => (isPySpace_not_marker (hw c hc)).2.2)
      have hcand : firstMin (candidates line) = none := by
        unfold candidates
        rw [hb, hh, hi]
        rfl
      rw [processFormats_eq_none hcand]
      refine congrArg (· ++ [termFrag]) ?_
      unfold applyFormat
      apply List.map_congr_left
      intro c hc
      have hz : isChineseChar c = false := by
        have hpc := hw c hc
        unfold isPySpace at hpc
        rw [decide_eq_true_iff] at hpc
        rcases hpc with h | h | h | h | h | h <;> subst h <;> decide
      simp [hz]
  refine ⟨by decide, key, ?_⟩
  rw [key (" ".data) (by decide)]
  decide

/-- Witness for C4's amended theorem: the whitespace-only clause applied to
the single-space line, which renders as a space fragment plus the
terminator. -/
theorem C4_empty_paragraph_amended_witness :
    processNormalLine (" ".data) =
      (" ".data).map (fun c => ([c], ["en"])) ++ [termFrag] :=
  C4_empty_paragraph_amended.2.1 (" ".data) (by decide)

/-- C7: a quote line is rendered as the fixed five-space-plus-bar indent
fragment, then the inline-formatted marker-stripped trimmed text in which
every fragment tag contains the `quote` component, then the terminator;
on `"> hello"` the indent fragment comes before any character of
`"hello"`. -/
theorem C7_quote_render :
    (∀ line : List Char,
      processQuote line =
        quoteIndentFrag ::
          (processFormats ["quote"] (pyStrip (line.drop 2)) [] ++
            [termFrag]) ∧
      (∀ f, f ∈ processFormats ["quote"] (pyStrip (line.drop 2)) [] →
        "quote" ∈ f.2) ∧
      (processQuote line).getLast? = some termFrag) ∧
    processQuote ("> hello".data) =
      quoteIndentFrag ::
        ([(['h'], ["en", "quote"]), (['e'], ["en", "quote"]),
          (['l'], ["en", "quote"]), (['l'], ["en", "quote"]),
          (['o'], ["en", "quote"])] ++ [termFrag]) := by
  constructor
  · intro line
    refine ⟨rfl, ?_, ?_⟩
    · intro f hf
      exact processFormats_tag_mem_aux (pyStrip (line.drop 2)).length
        (pyStrip (line.drop 2)) le_rfl [] ["quote"] (by decide) f hf
    · have hq : processQuote line = (quoteIndentFrag ::
          processFormats ["quote"] (pyStrip (line.drop 2)) []) ++
          [termFrag] := by
        unfold processQuote processTextFormat
        simp
      rw [hq]
      exact List.getLast?_concat _
  · unfold processQuote processTextFormat
    simp only []
    rw [(by decide : pyStrip (("> hello".data).drop 2) = "hello".data)]
    rw [@processFormats_eq_none ["quote"] ("hello".data) [] (by decide)]
    decide

/-- Witness for C7: the tag-membership clause applied to the first
character fragment of `"> hello"`, whose tag `["en", "quote"]` contains the
quote component. -/
theorem C7_quote_render_witness :
    "quote" ∈ ((['h'], ["en", "quote"]) : Frag).2 :=
  (C7_quote_render.1 ("> hello".data)).2.1 (['h'], ["en", "quote"])
    (by
      rw [(by decide : pyStrip (("> hello".data).drop 2) = "hello".data),
        @processFormats_eq_none ["quote"] ("hello".data) [] (by decide)]
      decide)

/-- C10: for every document the rendered fragment list ends with the
terminator fragment and contains exactly one terminator per line, i.e.
`count('\n') + 1` of them; the empty document renders to exactly the
terminator. -/
theorem C10_terminator_invariant :
    (∀ content : List Char,
      (parseMarkdown content).getLast? = some termFrag ∧
      countTerm (parseMarkdown content) = content.count '\n' + 1) ∧
    parseMarkdown [] = [termFrag] := by
  constructor
  · intro content
    constructor
    · unfold parseMarkdown
      exact getLast_flatten (splitNl content) (splitNl_ne_nil content)
    · unfold parseMarkdown
      rw [countTerm_flatten, splitNl_length]
  · decide

end MyTempo
